import Mathlib

/-!
Shallow embedding of `src/ppgen/core.py` (keli/ppgen): the pinyin-based
password / passphrase generator.  Randomness is modelled by an explicit
`Rng` (a finite tape of coin flips and index draws, padded with defaults);
quantifying over all `Rng` values covers every sequence of random outcomes
of the Python code.  Fallible operations return `Except GenError`; the
unbounded `while` loops take an explicit fuel argument, with
`GenError.fuelExhausted` marking the (unreachable, as proved below)
out-of-fuel case.
-/

namespace PPGen

/-- ASCII lower → upper table; models Python `str.upper()` on the ASCII
letters occurring in pinyin readings. -/
def asciiUpperTable : List (Char × Char) :=
  [('a', 'A'), ('b', 'B'), ('c', 'C'), ('d', 'D'), ('e', 'E'), ('f', 'F'),
   ('g', 'G'), ('h', 'H'), ('i', 'I'), ('j', 'J'), ('k', 'K'), ('l', 'L'),
   ('m', 'M'), ('n', 'N'), ('o', 'O'), ('p', 'P'), ('q', 'Q'), ('r', 'R'),
   ('s', 'S'), ('t', 'T'), ('u', 'U'), ('v', 'V'), ('w', 'W'), ('x', 'X'),
   ('y', 'Y'), ('z', 'Z')]

/-- Uppercase a single character (Python `c.upper()` restricted to ASCII). -/
def pyUpper (c : Char) : Char :=
  match List.lookup c asciiUpperTable with
  | some u => u
  | none => c

/-- `capitalize_pinyin` from core.py:
`return pinyin[0].upper() + pinyin[1:] if pinyin else pinyin`. -/
def capitalize_pinyin (p : String) : String :=
  match p.data with
  | [] => p
  | c :: cs => String.mk (pyUpper c :: cs)

/-- A word's dictionary entry: romanized reading and syllable count
(`{"pinyin": ..., "char_count": ...}` in core.py). -/
structure Entry where
  pinyin : String
  char_count : Nat
deriving DecidableEq, Repr

/-- The word dictionary, as the ordered association list underlying the
Python dict (keys unique). -/
abbrev WordDict := List (String × Entry)

/-- Explicit randomness source: a tape of coin flips (`random.random() < 0.5`
outcomes) and of index draws (for `random.choice` / `random.sample`),
padded with defaults once exhausted. -/
structure Rng where
  coins : List Bool
  nats : List Nat
deriving DecidableEq, Repr

def Rng.bool : Rng → Bool × Rng
  | ⟨[], ns⟩ => (false, ⟨[], ns⟩)
  | ⟨b :: bs, ns⟩ => (b, ⟨bs, ns⟩)

def Rng.nat : Rng → Nat × Rng
  | ⟨bs, []⟩ => (0, ⟨bs, []⟩)
  | ⟨bs, n :: ns⟩ => (n, ⟨bs, ns⟩)

/-- Failure modes: `emptyCatalog` models the `IndexError` of
`random.choice` on an empty sequence, `sampleTooLarge` the `ValueError` of
`random.sample` when the sample exceeds the population, and
`fuelExhausted` is the modelling artifact for a loop running out of fuel. -/
inductive GenError where
  | emptyCatalog
  | sampleTooLarge
  | fuelExhausted
deriving DecidableEq, Repr

deriving instance DecidableEq for Except

instance decNil (l : List α) : Decidable (l = []) :=
  match l with
  | [] => .isTrue rfl
  | _ :: _ => .isFalse (fun h => List.noConfusion h)

/-- Pick the element of a non-empty list at a tape index (mod length):
the shallow model of one uniform draw of `random.choice`. -/
def pickMod (l : List α) (i : Nat) (h : l ≠ []) : α :=
  l.get ⟨i % l.length, Nat.mod_lt i (List.length_pos.mpr h)⟩

/-- `random.choice(seq)`: raises on an empty sequence. -/
def pyChoice (l : List α) (r : Rng) : Except GenError (α × Rng) :=
  if h : l = [] then .error .emptyCatalog
  else .ok (pickMod l r.nat.1 h, r.nat.2)

/-- `special_chars = "!@#*~"` in core.py. -/
def special_chars : List Char := ['!', '@', '#', '*', '~']

/-- `numbers = "0123456789"` in core.py. -/
def numbers : List Char := ['0', '1', '2', '3', '4', '5', '6', '7', '8', '9']

/-- One separator/filler draw: coin flip, then `random.choice` from the
symbol set or the digit set. -/
def pickSep (r : Rng) : Char × Rng :=
  if r.bool.1 then (pickMod special_chars r.bool.2.nat.1 (by decide), r.bool.2.nat.2)
  else (pickMod numbers r.bool.2.nat.1 (by decide), r.bool.2.nat.2)

/-- The reading actually used for a selected word: capitalized when the
`capitalize` flag is set. -/
def readingOf (cap : Bool) (we : String × Entry) : String :=
  if cap then capitalize_pinyin we.2.pinyin else we.2.pinyin

/-- The `while sum(len(p) for p in pinyins) < min_length - 3` accumulation
loop of `generate_complex_password`, with fuel. -/
def complexLoop (d : WordDict) (cap : Bool) (target : Nat) :
    Nat → List String → List String → Rng →
    Except GenError (List String × List String × Rng)
  | 0, _, _, _ => .error .fuelExhausted
  | fuel + 1, ps, cs, r =>
    if (ps.map String.length).sum < target then
      match pyChoice d r with
      | .error e => .error e
      | .ok (we, r1) =>
        complexLoop d cap target fuel (ps ++ [readingOf cap we]) (cs ++ [we.1]) r1
    else .ok (ps, cs, r)

/-- Draw `n` separator characters in order (the per-boundary separators,
and the two trailing filler characters, of `generate_complex_password`). -/
def buildSeps : Nat → Rng → List Char × Rng
  | 0, r => ([], r)
  | n + 1, r =>
    ((pickSep r).1 :: (buildSeps n (pickSep r).2).1, (buildSeps n (pickSep r).2).2)

/-- The `password` list of core.py: each reading's characters, with one
separator after every reading except the last (`separators` has exactly
`pinyins.length - 1` entries in every actual call). -/
def buildPassword : List String → List Char → List Char
  | [], _ => []
  | p :: ps, [] => p.data ++ buildPassword ps []
  | p :: ps, s :: ss => p.data ++ s :: buildPassword ps ss

/-- One `f"{char}({pinyin})"` hint token. -/
def hintToken (w p : String) : List Char :=
  w.data ++ '(' :: (p.data ++ [')'])

/-- The hint of `generate_complex_password`: tokens interleaved with the
exact separators used in the password. -/
def buildHint : List (String × String) → List Char → List Char
  | [], _ => []
  | (w, p) :: rest, [] => hintToken w p ++ buildHint rest []
  | (w, p) :: rest, s :: ss => hintToken w p ++ s :: buildHint rest ss

/-- The internal pieces of one `generate_complex_password` run: selected
readings, selected words, boundary separators, two trailing fillers. -/
def complexParts (d : WordDict) (min_length : Nat) (cap : Bool) (fuel : Nat)
    (r : Rng) :
    Except GenError (List String × List String × List Char × List Char) :=
  match complexLoop d cap (min_length - 3) fuel [] [] r with
  | .error e => .error e
  | .ok (ps, cs, r1) =>
    .ok (ps, cs, (buildSeps (ps.length - 1) r1).1,
         (buildSeps 2 (buildSeps (ps.length - 1) r1).2).1)

/-- `generate_complex_password(word_dict, min_length, capitalize)` from
core.py, returning `(password, hint)`. -/
def generate_complex_password (d : WordDict) (min_length : Nat) (cap : Bool)
    (fuel : Nat) (r : Rng) : Except GenError (String × String) :=
  match complexParts d min_length cap fuel r with
  | .error e => .error e
  | .ok (ps, cs, seps, fins) =>
    .ok (String.mk (buildPassword ps seps ++ fins),
         String.mk (buildHint (cs.zip ps) seps ++ fins))

/-- The literal failure hint `"没有找到符合字数要求的词"` of core.py. -/
def noWordsMsg : String := "没有找到符合字数要求的词"

/-- The `valid_words` filter of `generate_passphrase`: entries whose
`char_count` equals the requested `character_count`. -/
def validWords (d : WordDict) (cc : Nat) : List (String × Entry) :=
  d.filter (fun we => we.2.char_count == cc)

/-- `random.sample(pop, k)`: `k` distinct draws without replacement;
errors when the sample size exceeds the population. -/
def pySample : Nat → List α → Rng → Except GenError (List α × Rng)
  | 0, _, r => .ok ([], r)
  | k + 1, pop, r =>
    if h : pop = [] then .error .sampleTooLarge
    else
      match pySample k (pop.eraseIdx (r.nat.1 % pop.length)) r.nat.2 with
      | .error e => .error e
      | .ok (xs, r2) => .ok (pickMod pop r.nat.1 h :: xs, r2)

/-- Outcome of the minimum-length accumulation loop of
`generate_passphrase`. -/
inductive PassLoopRes where
  | done (ps cs : List String) (r : Rng)
  | noWords
  | fuelOut
deriving DecidableEq, Repr

/-- The `while len(pinyins) < 3 or sum(...) < min_length` loop of
`generate_passphrase`, with fuel. -/
def passLoop (d : WordDict) (cc : Nat) (cap : Bool) (min_length : Nat) :
    Nat → List String → List String → Rng → PassLoopRes
  | 0, _, _, _ => .fuelOut
  | fuel + 1, ps, cs, r =>
    if ps.length < 3 ∨ (ps.map String.length).sum < min_length then
      if h : validWords d cc = [] then .noWords
      else
        passLoop d cc cap min_length fuel
          (ps ++ [readingOf cap (pickMod (validWords d cc) r.nat.1 h)])
          (cs ++ [(pickMod (validWords d cc) r.nat.1 h).1]) r.nat.2
    else .done ps cs r

/-- One `f"{char}({pinyin})"` hint entry, as a string. -/
def hintEntry (w p : String) : String := String.mk (hintToken w p)

/-- `generate_passphrase(word_dict, min_length, word_count,
character_count, capitalize)` from core.py.  `word_count = none` selects
the minimum-length mode, `some wc` the fixed-count mode. -/
def generate_passphrase (d : WordDict) (min_length : Nat)
    (word_count : Option Nat) (character_count : Nat) (cap : Bool)
    (fuel : Nat) (r : Rng) : Except GenError (String × String) :=
  match word_count with
  | some wc =>
    let actual := max 3 wc
    if validWords d character_count = [] then .ok ("", noWordsMsg)
    else
      match pySample actual (validWords d character_count) r with
      | .error e => .error e
      | .ok (ws, _) =>
        .ok (String.intercalate "-" (ws.map (readingOf cap)),
             String.intercalate "-"
               (ws.map (fun we => hintEntry we.1 (readingOf cap we))))
  | none =>
    match passLoop d character_count cap min_length fuel [] [] r with
    | .done ps cs _ =>
      .ok (String.intercalate "-" ps,
           String.intercalate "-"
             ((cs.zip ps).map (fun wp => hintEntry wp.1 wp.2)))
    | .noWords => .ok ("", noWordsMsg)
    | .fuelOut => .error .fuelExhausted

/-- Parse a complex-password hint back into its `word(reading)` pairs, the
separator between each consecutive pair of tokens, and the trailing filler
characters.  The first argument is the number of tokens still expected
(instantiated with the count of `(` in the hint). -/
def parseHintAux : Nat → List Char →
    Option (List (String × String) × List Char × List Char)
  | 0, l => some ([], [], l)
  | n + 1, l =>
    match l.dropWhile (· != '(') with
    | [] => none
    | _ :: rest2 =>
      match rest2.dropWhile (· != ')') with
      | [] => none
      | _ :: rest4 =>
        match n with
        | 0 =>
          some ([(String.mk (l.takeWhile (· != '(')),
                  String.mk (rest2.takeWhile (· != ')')))], [], rest4)
        | m + 1 =>
          match rest4 with
          | [] => none
          | s :: rest5 =>
            match parseHintAux (m + 1) rest5 with
            | none => none
            | some (pairs, seps, fins) =>
              some ((String.mk (l.takeWhile (· != '(')),
                     String.mk (rest2.takeWhile (· != ')'))) :: pairs,
                s :: seps, fins)

/-- Reconstruct the components of a complex-password hint from the hint
string alone. -/
def parseHint (s : String) :
    Option (List (String × String) × List Char × List Char) :=
  parseHintAux (s.data.count '(') s.data

/-- Sample catalog used to instantiate the theorems on concrete data. -/
def d0 : WordDict :=
  [("你好", ⟨"nihao", 2⟩), ("世界", ⟨"shijie", 2⟩), ("北京", ⟨"beijing", 2⟩)]

/-- A concrete randomness tape. -/
def rng0 : Rng := ⟨[true, false, true], [2, 0, 1, 3]⟩

/-! ### Basic facts about the capitalization transform -/

theorem upper_not_in_table :
    ∀ wp ∈ asciiUpperTable,
      List.lookup wp.2 asciiUpperTable = none ∧ wp.2 ≠ '(' ∧ wp.2 ≠ ')' := by
  decide

theorem pyUpper_idem (c : Char) : pyUpper (pyUpper c) = pyUpper c := by
  cases h : List.lookup c asciiUpperTable with
  | none => simp [pyUpper, h]
  | some u =>
    obtain ⟨l₁, l₂, hl, -⟩ := List.lookup_eq_some_iff.mp h
    have hmem : (c, u) ∈ asciiUpperTable := by
      rw [hl]; exact List.mem_append_right _ (List.mem_cons_self _ _)
    have hu := upper_not_in_table (c, u) hmem
    simp [pyUpper, h, hu.1]

theorem pyUpper_ne_lparen {c : Char} (h : c ≠ '(') : pyUpper c ≠ '(' := by
  cases hl : List.lookup c asciiUpperTable with
  | none => simpa [pyUpper, hl] using h
  | some u =>
    obtain ⟨l₁, l₂, heq, -⟩ := List.lookup_eq_some_iff.mp hl
    have hmem : (c, u) ∈ asciiUpperTable := by
      rw [heq]; exact List.mem_append_right _ (List.mem_cons_self _ _)
    simpa [pyUpper, hl] using (upper_not_in_table (c, u) hmem).2.1

theorem pyUpper_ne_rparen {c : Char} (h : c ≠ ')') : pyUpper c ≠ ')' := by
  cases hl : List.lookup c asciiUpperTable with
  | none => simpa [pyUpper, hl] using h
  | some u =>
    obtain ⟨l₁, l₂, heq, -⟩ := List.lookup_eq_some_iff.mp hl
    have hmem : (c, u) ∈ asciiUpperTable := by
      rw [heq]; exact List.mem_append_right _ (List.mem_cons_self _ _)
    simpa [pyUpper, hl] using (upper_not_in_table (c, u) hmem).2.2

theorem capitalize_length (p : String) :
    (capitalize_pinyin p).length = p.length := by
  rcases p with ⟨l⟩
  cases l with
  | nil => rfl
  | cons c cs => rfl

theorem capitalize_ne_empty {p : String} (h : p ≠ "") :
    capitalize_pinyin p ≠ "" := by
  rcases p with ⟨l⟩
  cases l with
  | nil => exact h
  | cons c cs =>
    intro he
    have : (pyUpper c :: cs : List Char) = [] := congrArg String.data he
    exact List.noConfusion this

theorem capitalize_lparen {p : String} (h : '(' ∉ p.data) :
    '(' ∉ (capitalize_pinyin p).data := by
  unfold capitalize_pinyin
  cases hd : p.data with
  | nil => exact h
  | cons c cs =>
    rw [hd, List.mem_cons, not_or] at h
    show '(' ∉ pyUpper c :: cs
    rw [List.mem_cons, not_or]
    exact ⟨fun he => pyUpper_ne_lparen (fun hc => h.1 hc.symm) he.symm, h.2⟩

theorem capitalize_rparen {p : String} (h : ')' ∉ p.data) :
    ')' ∉ (capitalize_pinyin p).data := by
  unfold capitalize_pinyin
  cases hd : p.data with
  | nil => exact h
  | cons c cs =>
    rw [hd, List.mem_cons, not_or] at h
    show ')' ∉ pyUpper c :: cs
    rw [List.mem_cons, not_or]
    exact ⟨fun he => pyUpper_ne_rparen (fun hc => h.1 hc.symm) he.symm, h.2⟩

theorem readingOf_length (cap : Bool) (we : String × Entry) :
    (readingOf cap we).length = we.2.pinyin.length := by
  cases cap with
  | false => rfl
  | true => simp [readingOf, capitalize_length]

theorem readingOf_ne_empty {cap : Bool} {we : String × Entry}
    (h : we.2.pinyin ≠ "") : readingOf cap we ≠ "" := by
  cases cap with
  | false => exact h
  | true => simpa [readingOf] using capitalize_ne_empty h

theorem readingOf_lparen {cap : Bool} {we : String × Entry}
    (h : '(' ∉ we.2.pinyin.data) : '(' ∉ (readingOf cap we).data := by
  cases cap with
  | false => exact h
  | true => simpa [readingOf] using capitalize_lparen h

theorem readingOf_rparen {cap : Bool} {we : String × Entry}
    (h : ')' ∉ we.2.pinyin.data) : ')' ∉ (readingOf cap we).data := by
  cases cap with
  | false => exact h
  | true => simpa [readingOf] using capitalize_rparen h

theorem length_pos_of_ne_empty {p : String} (h : p ≠ "") : 1 ≤ p.length := by
  rcases p with ⟨l⟩
  cases l with
  | nil => exact absurd rfl h
  | cons c cs => simp [String.length]

/-! ### Claim theorems: capitalization and mode independence -/

/-- C9: applying the capitalization transform twice to any reading yields
the same result as applying it once, and the empty string is returned
unchanged without error. -/
theorem capitalize_pinyin_idempotent :
    (∀ p : String,
      capitalize_pinyin (capitalize_pinyin p) = capitalize_pinyin p) ∧
    capitalize_pinyin "" = "" := by
  refine ⟨fun p => ?_, rfl⟩
  rcases p with ⟨l⟩
  cases l with
  | nil => rfl
  | cons c cs => simp [capitalize_pinyin, pyUpper_idem]

/-- C10: in fixed-count mode the `min_length` parameter has no effect:
with the same catalog, word count, syllable count, capitalize flag and the
same random tape, two calls with different `min_length` values return
identical results. -/
theorem passphrase_fixed_count_ignores_min_length
    (d : WordDict) (ml1 ml2 wc cc : Nat) (cap : Bool) (fuel : Nat)
    (r : Rng) :
    generate_passphrase d ml1 (some wc) cc cap fuel r =
      generate_passphrase d ml2 (some wc) cc cap fuel r := rfl

/-! ### Failure results: no eligible words, empty catalog, oversized sample -/

/-- C7: when no catalog word has the requested syllable count, both
passphrase modes return the empty secret together with the (non-empty)
explanatory hint, as an ordinary result rather than an error. -/
theorem passphrase_no_eligible_words
    (d : WordDict) (ml : Nat) (wc : Option Nat) (cc : Nat) (cap : Bool)
    (fuel : Nat) (r : Rng)
    (hvalid : validWords d cc = []) (hfuel : 1 ≤ fuel) :
    generate_passphrase d ml wc cc cap fuel r = .ok ("", noWordsMsg) ∧
      noWordsMsg ≠ "" := by
  refine ⟨?_, by decide⟩
  cases wc with
  | some n => simp [generate_passphrase, hvalid]
  | none =>
    obtain ⟨f, rfl⟩ : ∃ f, fuel = f + 1 := ⟨fuel - 1, by omega⟩
    simp [generate_passphrase, passLoop, hvalid]

theorem passphrase_no_eligible_words_witness :
    generate_passphrase d0 10 none 5 false 7 rng0 = .ok ("", noWordsMsg) ∧
      noWordsMsg ≠ "" :=
  passphrase_no_eligible_words d0 10 none 5 false 7 rng0 (by decide)
    (by decide)

/-- C3 counterexample: with an empty catalog and `min_length = 3` the
complex-password generator does not fail at all — it returns a
two-character secret (the two trailing fillers). -/
theorem complex_empty_catalog_returns_result :
    generate_complex_password [] 3 false 5 ⟨[], []⟩ = .ok ("00", "00") := by
  decide

/-- C3 amended: with an empty catalog the complex-password generator
fails with the empty-catalog error (before accumulating any word)
whenever `min_length ≥ 4`; for `min_length ≤ 3` it instead returns a
result consisting of the two trailing fillers only. -/
theorem complex_empty_catalog_fails (ml : Nat) (cap : Bool) (fuel : Nat)
    (r : Rng) (hml : 4 ≤ ml) (hfuel : 1 ≤ fuel) :
    generate_complex_password [] ml cap fuel r = .error .emptyCatalog := by
  obtain ⟨f, rfl⟩ : ∃ f, fuel = f + 1 := ⟨fuel - 1, by omega⟩
  have h3 : 3 < ml := by omega
  simp [generate_complex_password, complexParts, complexLoop, h3, pyChoice]

theorem complex_empty_catalog_fails_witness :
    generate_complex_password [] 4 false 1 ⟨[], []⟩ = .error .emptyCatalog :=
  complex_empty_catalog_fails 4 false 1 ⟨[], []⟩ (by decide) (by decide)

theorem pySample_err_of_lt :
    ∀ (k : Nat) (pop : List α) (r : Rng), pop.length < k →
      pySample k pop r = .error .sampleTooLarge := by
  intro k
  induction k with
  | zero => intro pop r h; omega
  | succ n ih =>
    intro pop r h
    by_cases hp : pop = []
    · simp [pySample, hp]
    · have hpos := List.length_pos.mpr hp
      have hlt : (pop.eraseIdx (r.nat.1 % pop.length)).length < n := by
        rw [List.length_eraseIdx_of_lt (Nat.mod_lt _ hpos)]
        omega
      simp [pySample, hp, ih _ _ hlt]

/-- C6: in fixed-count mode, when the filter leaves a non-empty set that
is still smaller than `max 3 wordCount`, the generator fails with the
oversized-sample error (the `ValueError` of `random.sample`); it never
truncates the count and never returns duplicates. -/
theorem passphrase_insufficient_distinct_words
    (d : WordDict) (ml wc cc : Nat) (cap : Bool) (fuel : Nat) (r : Rng)
    (hne : validWords d cc ≠ [])
    (hlt : (validWords d cc).length < max 3 wc) :
    generate_passphrase d ml (some wc) cc cap fuel r =
      .error .sampleTooLarge := by
  simp [generate_passphrase, hne, pySample_err_of_lt _ _ _ hlt]

theorem passphrase_insufficient_distinct_words_witness :
    generate_passphrase d0 10 (some 5) 2 false 5 rng0 =
      .error .sampleTooLarge :=
  passphrase_insufficient_distinct_words d0 10 5 2 false 5 rng0 (by decide)
    (by decide)

/-! ### Sampling without replacement: success, length, distinctness -/

theorem getElem_not_mem_eraseIdx (pop : List α) (i : Nat)
    (hi : i < pop.length) (hnd : pop.Nodup) : pop[i] ∉ pop.eraseIdx i := by
  have hsplit : pop = pop.take i ++ pop[i] :: pop.drop (i + 1) := by
    conv_lhs => rw [← List.take_append_drop i pop,
      List.drop_eq_getElem_cons hi]
  have h2 : (pop.take i ++ pop[i] :: pop.drop (i + 1)).Nodup := hsplit ▸ hnd
  have h3 := List.nodup_middle.mp h2
  rw [List.eraseIdx_eq_take_drop_succ]
  exact (List.nodup_cons.mp h3).1

theorem pySample_ok_of_le :
    ∀ (k : Nat) (pop : List α) (r : Rng), k ≤ pop.length →
      ∃ ws r', pySample k pop r = .ok (ws, r') := by
  intro k
  induction k with
  | zero => intro pop r _; exact ⟨[], r, rfl⟩
  | succ n ih =>
    intro pop r h
    have hp : pop ≠ [] := by
      intro he; subst he; simp at h
    have hpos := List.length_pos.mpr hp
    obtain ⟨ws, r', hws⟩ :=
      ih (pop.eraseIdx (r.nat.1 % pop.length)) r.nat.2
        (by rw [List.length_eraseIdx_of_lt (Nat.mod_lt _ hpos)]; omega)
    exact ⟨pickMod pop r.nat.1 hp :: ws, r', by simp [pySample, hp, hws]⟩

theorem pySample_ok_length :
    ∀ (k : Nat) (pop : List α) (r : Rng) {ws : List α} {r' : Rng},
      pySample k pop r = .ok (ws, r') → ws.length = k := by
  intro k
  induction k with
  | zero =>
    intro pop r ws r' h
    simp [pySample] at h
    obtain ⟨h1, h2⟩ := h
    subst h1
    rfl
  | succ n ih =>
    intro pop r ws r' h
    by_cases hp : pop = []
    · simp [pySample, hp] at h
    · cases hrec : pySample n (pop.eraseIdx (r.nat.1 % pop.length)) r.nat.2
        with
      | error e => simp [pySample, hp, hrec] at h
      | ok p =>
        rcases p with ⟨xs, r2⟩
        simp [pySample, hp, hrec] at h
        obtain ⟨h1, h2⟩ := h
        subst h1
        simp [ih _ _ hrec]

theorem pySample_ok_nodup :
    ∀ (k : Nat) (pop : List α) (r : Rng) {ws : List α} {r' : Rng},
      pop.Nodup → pySample k pop r = .ok (ws, r') →
      ws.Nodup ∧ ∀ x ∈ ws, x ∈ pop := by
  intro k
  induction k with
  | zero =>
    intro pop r ws r' _ h
    simp [pySample] at h
    obtain ⟨h1, h2⟩ := h
    subst h1
    simp
  | succ n ih =>
    intro pop r ws r' hnd h
    by_cases hp : pop = []
    · simp [pySample, hp] at h
    · have hpos := List.length_pos.mpr hp
      have hmod := Nat.mod_lt r.nat.1 hpos
      cases hrec : pySample n (pop.eraseIdx (r.nat.1 % pop.length)) r.nat.2
        with
      | error e => simp [pySample, hp, hrec] at h
      | ok p =>
        rcases p with ⟨xs, r2⟩
        have hernd : (pop.eraseIdx (r.nat.1 % pop.length)).Nodup :=
          (List.eraseIdx_sublist pop (r.nat.1 % pop.length)).nodup hnd
        obtain ⟨hxsnd, hxs⟩ := ih _ _ hernd hrec
        simp [pySample, hp, hrec] at h
        obtain ⟨h1, h2⟩ := h
        subst h1
        constructor
        · rw [List.nodup_cons]
          refine ⟨fun hmem => ?_, hxsnd⟩
          have : pickMod pop r.nat.1 hp ∈ pop.eraseIdx (r.nat.1 % pop.length) :=
            hxs _ hmem
          rw [pickMod, List.get_eq_getElem] at this
          exact getElem_not_mem_eraseIdx pop _ hmod hnd this
        · intro x hx
          rcases List.mem_cons.mp hx with hx | hx
          · rw [hx, pickMod, List.get_eq_getElem]
            exact List.getElem_mem _
          · exact List.eraseIdx_subset _ _ (hxs x hx)

/-- C5: in fixed-count mode, when the filtered eligible set has at least
`max 3 wordCount` entries (and catalog keys are unique, as in a Python
dict), the generator succeeds using exactly `max 3 wordCount`
pairwise-distinct words; in particular `wordCount = 2` yields 3 words. -/
theorem passphrase_fixed_count_distinct
    (d : WordDict) (ml wc cc : Nat) (cap : Bool) (fuel : Nat) (r : Rng)
    (hnd : (d.map Prod.fst).Nodup)
    (hlen : max 3 wc ≤ (validWords d cc).length) :
    ∃ ws r',
      pySample (max 3 wc) (validWords d cc) r = .ok (ws, r') ∧
      ws.length = max 3 wc ∧ (ws.map Prod.fst).Nodup ∧
      generate_passphrase d ml (some wc) cc cap fuel r =
        .ok (String.intercalate "-" (ws.map (readingOf cap)),
             String.intercalate "-"
               (ws.map (fun we => hintEntry we.1 (readingOf cap we)))) := by
  have hp : validWords d cc ≠ [] := by
    intro he
    rw [he] at hlen
    simp at hlen
  obtain ⟨ws, r', hok⟩ := pySample_ok_of_le _ _ r hlen
  have hvnd : (validWords d cc).Nodup :=
    (List.filter_sublist d).nodup (List.Nodup.of_map Prod.fst hnd)
  have hvf : ((validWords d cc).map Prod.fst).Nodup :=
    ((List.filter_sublist d).map Prod.fst).nodup hnd
  obtain ⟨hwnd, hsub⟩ := pySample_ok_nodup _ _ _ hvnd hok
  refine ⟨ws, r', hok, pySample_ok_length _ _ _ hok, ?_, ?_⟩
  · exact hwnd.map_on
      (fun x hx y hy hxy =>
        List.inj_on_of_nodup_map hvf (hsub x hx) (hsub y hy) hxy)
  · simp [generate_passphrase, hp, hok]

theorem passphrase_fixed_count_distinct_witness :
    ∃ ws r',
      pySample (max 3 2) (validWords d0 2) rng0 = .ok (ws, r') ∧
      ws.length = max 3 2 ∧ (ws.map Prod.fst).Nodup ∧
      generate_passphrase d0 10 (some 2) 2 false 5 rng0 =
        .ok (String.intercalate "-" (ws.map (readingOf false)),
             String.intercalate "-"
               (ws.map (fun we => hintEntry we.1 (readingOf false we)))) :=
  passphrase_fixed_count_distinct d0 10 2 2 false 5 rng0 (by decide)
    (by decide)

/-! ### The minimum-length passphrase loop -/

theorem pickMod_mem (l : List α) (i : Nat) (h : l ≠ []) : pickMod l i h ∈ l :=
  List.get_mem _ _ _

theorem sum_map_append (ps : List String) (p : String) :
    ((ps ++ [p]).map String.length).sum =
      (ps.map String.length).sum + p.length := by
  simp

theorem passLoop_done_post (d : WordDict) (cc : Nat) (cap : Bool) (ml : Nat) :
    ∀ (fuel : Nat) (ps cs : List String) (r : Rng) {ps' cs' : List String}
      {r' : Rng},
      passLoop d cc cap ml fuel ps cs r = .done ps' cs' r' →
      3 ≤ ps'.length ∧ ml ≤ (ps'.map String.length).sum := by
  intro fuel
  induction fuel with
  | zero => intro ps cs r ps' cs' r' h; simp [passLoop] at h
  | succ f ih =>
    intro ps cs r ps' cs' r' h
    by_cases hcond : ps.length < 3 ∨ (ps.map String.length).sum < ml
    · by_cases hv : validWords d cc = []
      · simp [passLoop, hcond, hv] at h
      · rw [passLoop, if_pos hcond, dif_neg hv] at h
        exact ih _ _ _ h
    · rw [passLoop, if_neg hcond] at h
      injection h with h1 h2 h3
      subst h1
      push_neg at hcond
      exact ⟨hcond.1, hcond.2⟩

theorem passLoop_done_of_fuel (d : WordDict) (cc : Nat) (cap : Bool)
    (ml : Nat) (hv : validWords d cc ≠ [])
    (hpin : ∀ we ∈ validWords d cc, we.2.pinyin ≠ "") :
    ∀ (fuel : Nat) (ps cs : List String) (r : Rng),
      (3 - ps.length) + (ml - (ps.map String.length).sum) + 1 ≤ fuel →
      ∃ ps' cs' r', passLoop d cc cap ml fuel ps cs r = .done ps' cs' r' := by
  intro fuel
  induction fuel with
  | zero => intro ps cs r h; omega
  | succ f ih =>
    intro ps cs r h
    by_cases hcond : ps.length < 3 ∨ (ps.map String.length).sum < ml
    · set we := pickMod (validWords d cc) r.nat.1 hv with hwe
      have hmem : we ∈ validWords d cc := pickMod_mem _ _ _
      have hlen1 : 1 ≤ (readingOf cap we).length := by
        rw [readingOf_length]
        exact length_pos_of_ne_empty (hpin we hmem)
      obtain ⟨ps', cs', r', hrec⟩ :=
        ih (ps ++ [readingOf cap we]) (cs ++ [we.1]) r.nat.2
          (by rw [sum_map_append, List.length_append]; simp; omega)
      refine ⟨ps', cs', r', ?_⟩
      rw [passLoop, if_pos hcond, dif_neg hv]
      exact hrec
    · exact ⟨ps, cs, r, by rw [passLoop, if_neg hcond]⟩

/-- C4: in minimum-length mode, whenever some catalog word matches the
requested syllable count (with non-empty readings), the generator
terminates with at least 3 words whose summed reading lengths reach
`min_length`. -/
theorem passphrase_min_length_mode
    (d : WordDict) (ml cc : Nat) (cap : Bool) (fuel : Nat) (r : Rng)
    (hv : validWords d cc ≠ [])
    (hpin : ∀ we ∈ validWords d cc, we.2.pinyin ≠ "")
    (hfuel : ml + 4 ≤ fuel) :
    ∃ ps cs r',
      passLoop d cc cap ml fuel [] [] r = .done ps cs r' ∧
      3 ≤ ps.length ∧ ml ≤ (ps.map String.length).sum ∧
      generate_passphrase d ml none cc cap fuel r =
        .ok (String.intercalate "-" ps,
             String.intercalate "-"
               ((cs.zip ps).map (fun wp => hintEntry wp.1 wp.2))) := by
  obtain ⟨ps, cs, r', hdone⟩ :=
    passLoop_done_of_fuel d cc cap ml hv hpin fuel [] [] r (by simp; omega)
  obtain ⟨h3, hsum⟩ := passLoop_done_post d cc cap ml fuel [] [] r hdone
  exact ⟨ps, cs, r', hdone, h3, hsum, by simp [generate_passphrase, hdone]⟩

theorem passphrase_min_length_mode_witness :
    ∃ ps cs r',
      passLoop d0 2 false 10 14 [] [] rng0 = .done ps cs r' ∧
      3 ≤ ps.length ∧ 10 ≤ (ps.map String.length).sum ∧
      generate_passphrase d0 10 none 2 false 14 rng0 =
        .ok (String.intercalate "-" ps,
             String.intercalate "-"
               ((cs.zip ps).map (fun wp => hintEntry wp.1 wp.2))) :=
  passphrase_min_length_mode d0 10 2 false 14 rng0 (by decide) (by decide)
    (by decide)

/-! ### Termination: no generator run can exhaust its fuel -/

theorem pySample_ne_fuelOut :
    ∀ (k : Nat) (pop : List α) (r : Rng),
      pySample k pop r ≠ .error .fuelExhausted := by
  intro k
  induction k with
  | zero => intro pop r h; simp [pySample] at h
  | succ n ih =>
    intro pop r h
    by_cases hp : pop = []
    · simp [pySample, hp] at h
    · cases hrec : pySample n (pop.eraseIdx (r.nat.1 % pop.length)) r.nat.2
        with
      | error e =>
        rw [pySample, dif_neg hp, hrec] at h
        injection h with he
        rw [he] at hrec
        exact ih _ _ hrec
      | ok p => rw [pySample, dif_neg hp, hrec] at h; exact Except.noConfusion h

theorem passLoop_ne_fuelOut (d : WordDict) (cc : Nat) (cap : Bool)
    (ml : Nat) (hpin : ∀ we ∈ validWords d cc, we.2.pinyin ≠ "") :
    ∀ (fuel : Nat) (ps cs : List String) (r : Rng),
      (3 - ps.length) + (ml - (ps.map String.length).sum) + 1 ≤ fuel →
      passLoop d cc cap ml fuel ps cs r ≠ .fuelOut := by
  intro fuel
  induction fuel with
  | zero => intro ps cs r h; omega
  | succ f ih =>
    intro ps cs r h hout
    by_cases hcond : ps.length < 3 ∨ (ps.map String.length).sum < ml
    · by_cases hv : validWords d cc = []
      · simp [passLoop, hcond, hv] at hout
      · rw [passLoop, if_pos hcond, dif_neg hv] at hout
        have hmem : pickMod (validWords d cc) r.nat.1 hv ∈ validWords d cc :=
          pickMod_mem _ _ _
        have hlen1 :
            1 ≤ (readingOf cap (pickMod (validWords d cc) r.nat.1 hv)).length := by
          rw [readingOf_length]
          exact length_pos_of_ne_empty (hpin _ hmem)
        refine ih _ _ _ ?_ hout
        rw [sum_map_append, List.length_append]
        simp
        omega
    · rw [passLoop, if_neg hcond] at hout
      exact PassLoopRes.noConfusion hout

theorem complexLoop_ne_fuelOut (d : WordDict) (cap : Bool) (t : Nat)
    (hpin : ∀ we ∈ d, we.2.pinyin ≠ "") :
    ∀ (fuel : Nat) (ps cs : List String) (r : Rng),
      (t - (ps.map String.length).sum) + 1 ≤ fuel →
      complexLoop d cap t fuel ps cs r ≠ .error .fuelExhausted := by
  intro fuel
  induction fuel with
  | zero => intro ps cs r h; omega
  | succ f ih =>
    intro ps cs r h hout
    by_cases hcond : (ps.map String.length).sum < t
    · by_cases hd : d = []
      · rw [complexLoop, if_pos hcond] at hout
        simp [pyChoice, hd] at hout
      · rw [complexLoop, if_pos hcond] at hout
        rw [pyChoice, dif_neg hd] at hout
        have hmem : pickMod d r.nat.1 hd ∈ d := pickMod_mem _ _ _
        have hlen1 :
            1 ≤ (readingOf cap (pickMod d r.nat.1 hd)).length := by
          rw [readingOf_length]
          exact length_pos_of_ne_empty (hpin _ hmem)
        refine ih _ _ _ ?_ hout
        rw [sum_map_append]
        omega
    · rw [complexLoop, if_neg hcond] at hout
      exact Except.noConfusion hout

/-- C8: with all readings non-empty, both generators settle — return a
result or fail — within a fuel bound linear in the requested length; the
fuel-exhaustion marker (the only way a run could fail to settle) is never
reached. -/
theorem generators_terminate
    (d : WordDict) (ml : Nat) (wc : Option Nat) (cc : Nat) (cap : Bool)
    (fuel1 fuel2 : Nat) (r1 r2 : Rng)
    (hpin : ∀ we ∈ d, we.2.pinyin ≠ "")
    (hf1 : ml + 1 ≤ fuel1) (hf2 : ml + 4 ≤ fuel2) :
    generate_complex_password d ml cap fuel1 r1 ≠ .error .fuelExhausted ∧
    generate_passphrase d ml wc cc cap fuel2 r2 ≠ .error .fuelExhausted := by
  constructor
  · intro hbad
    cases hl : complexLoop d cap (ml - 3) fuel1 [] [] r1 with
    | error e =>
      rw [generate_complex_password, complexParts, hl] at hbad
      injection hbad with he
      rw [he] at hl
      exact complexLoop_ne_fuelOut d cap (ml - 3) hpin fuel1 [] [] r1
        (by simp; omega) hl
    | ok p =>
      rcases p with ⟨ps, cs, r'⟩
      rw [generate_complex_password, complexParts, hl] at hbad
      exact Except.noConfusion hbad
  · have hpin' : ∀ we ∈ validWords d cc, we.2.pinyin ≠ "" :=
      fun we hwe => hpin we (List.mem_filter.mp hwe).1
    intro hbad
    cases wc with
    | some n =>
      by_cases hv : validWords d cc = []
      · simp [generate_passphrase, hv] at hbad
      · rw [generate_passphrase] at hbad
        simp only [hv, if_false] at hbad
        cases hs : pySample (max 3 n) (validWords d cc) r2 with
        | error e =>
          rw [hs] at hbad
          injection hbad with he
          rw [he] at hs
          exact pySample_ne_fuelOut _ _ _ hs
        | ok p =>
          rcases p with ⟨ws, r'⟩
          rw [hs] at hbad
          exact Except.noConfusion hbad
    | none =>
      cases hl : passLoop d cc cap ml fuel2 [] [] r2 with
      | done ps cs r' =>
        rw [generate_passphrase, hl] at hbad
        exact Except.noConfusion hbad
      | noWords =>
        rw [generate_passphrase, hl] at hbad
        exact Except.noConfusion hbad
      | fuelOut =>
        exact passLoop_ne_fuelOut d cc cap ml hpin' fuel2 [] [] r2
          (by simp; omega) hl

theorem generators_terminate_witness :
    generate_complex_password d0 10 false 11 rng0 ≠ .error .fuelExhausted ∧
    generate_passphrase d0 10 (some 3) 2 false 14 rng0 ≠
      .error .fuelExhausted :=
  generators_terminate d0 10 (some 3) 2 false 11 14 rng0 rng0 (by decide)
    (by decide) (by decide)

/-! ### The complex-password accumulation loop and assembly -/

theorem complexLoop_ok_sum (d : WordDict) (cap : Bool) (t : Nat) :
    ∀ (fuel : Nat) (ps cs : List String) (r : Rng) {ps' cs' : List String}
      {r' : Rng},
      complexLoop d cap t fuel ps cs r = .ok (ps', cs', r') →
      t ≤ (ps'.map String.length).sum := by
  intro fuel
  induction fuel with
  | zero => intro ps cs r ps' cs' r' h; simp [complexLoop] at h
  | succ f ih =>
    intro ps cs r ps' cs' r' h
    by_cases hcond : (ps.map String.length).sum < t
    · by_cases hd : d = []
      · rw [complexLoop, if_pos hcond] at h
        simp [pyChoice, hd] at h
      · rw [complexLoop, if_pos hcond, pyChoice, dif_neg hd] at h
        exact ih _ _ _ h
    · rw [complexLoop, if_neg hcond] at h
      injection h with h1
      injection h1 with h1 h2
      injection h2 with h2 h3
      subst h1
      omega

theorem complexLoop_ok_parts (d : WordDict) (cap : Bool) (t : Nat) :
    ∀ (fuel : Nat) (ps cs : List String) (r : Rng) {ps' cs' : List String}
      {r' : Rng},
      complexLoop d cap t fuel ps cs r = .ok (ps', cs', r') →
      cs.length = ps.length →
      cs'.length = ps'.length ∧
      (∀ p ∈ ps', p ∈ ps ∨ ∃ we ∈ d, p = readingOf cap we) ∧
      (∀ w ∈ cs', w ∈ cs ∨ ∃ we ∈ d, w = we.1) := by
  intro fuel
  induction fuel with
  | zero => intro ps cs r ps' cs' r' h _; simp [complexLoop] at h
  | succ f ih =>
    intro ps cs r ps' cs' r' h hlen
    by_cases hcond : (ps.map String.length).sum < t
    · by_cases hd : d = []
      · rw [complexLoop, if_pos hcond] at h
        simp [pyChoice, hd] at h
      · rw [complexLoop, if_pos hcond, pyChoice, dif_neg hd] at h
        have hmem : pickMod d r.nat.1 hd ∈ d := pickMod_mem _ _ _
        obtain ⟨hl, hps, hcs⟩ := ih _ _ _ h (by simp [hlen])
        refine ⟨hl, fun p hp => ?_, fun w hw => ?_⟩
        · rcases hps p hp with hin | hnew
          · rcases List.mem_append.mp hin with hin | hin
            · exact .inl hin
            · exact .inr ⟨pickMod d r.nat.1 hd, hmem,
                (List.mem_singleton.mp hin)⟩
          · exact .inr hnew
        · rcases hcs w hw with hin | hnew
          · rcases List.mem_append.mp hin with hin | hin
            · exact .inl hin
            · exact .inr ⟨pickMod d r.nat.1 hd, hmem,
                (List.mem_singleton.mp hin)⟩
          · exact .inr hnew
    · rw [complexLoop, if_neg hcond] at h
      injection h with h1
      injection h1 with h1 h2
      injection h2 with h2 h3
      subst h1
      subst h2
      exact ⟨hlen, fun p hp => .inl hp, fun w hw => .inl hw⟩

theorem complexLoop_ok_of_fuel (d : WordDict) (cap : Bool) (t : Nat)
    (hd : d ≠ []) (hpin : ∀ we ∈ d, we.2.pinyin ≠ "") :
    ∀ (fuel : Nat) (ps cs : List String) (r : Rng),
      (t - (ps.map String.length).sum) + 1 ≤ fuel →
      ∃ ps' cs' r', complexLoop d cap t fuel ps cs r = .ok (ps', cs', r') := by
  intro fuel
  induction fuel with
  | zero => intro ps cs r h; omega
  | succ f ih =>
    intro ps cs r h
    by_cases hcond : (ps.map String.length).sum < t
    · have hmem : pickMod d r.nat.1 hd ∈ d := pickMod_mem _ _ _
      have hlen1 : 1 ≤ (readingOf cap (pickMod d r.nat.1 hd)).length := by
        rw [readingOf_length]
        exact length_pos_of_ne_empty (hpin _ hmem)
      obtain ⟨ps', cs', r', hrec⟩ :=
        ih (ps ++ [readingOf cap (pickMod d r.nat.1 hd)])
          (cs ++ [(pickMod d r.nat.1 hd).1]) r.nat.2
          (by rw [sum_map_append]; omega)
      refine ⟨ps', cs', r', ?_⟩
      rw [complexLoop, if_pos hcond, pyChoice, dif_neg hd]
      exact hrec
    · exact ⟨ps, cs, r, by rw [complexLoop, if_neg hcond]⟩

theorem buildSeps_length (n : Nat) (r : Rng) :
    ((buildSeps n r).1).length = n := by
  induction n generalizing r with
  | zero => rfl
  | succ m ih => simp [buildSeps, ih]

theorem pickSep_mem (r : Rng) :
    (pickSep r).1 ∈ special_chars ∨ (pickSep r).1 ∈ numbers := by
  rw [pickSep]
  by_cases hb : r.bool.1
  · rw [if_pos hb]
    exact .inl (pickMod_mem _ _ (by decide))
  · rw [if_neg hb]
    exact .inr (pickMod_mem _ _ (by decide))

theorem buildSeps_mem (n : Nat) (r : Rng) :
    ∀ c ∈ (buildSeps n r).1, c ∈ special_chars ∨ c ∈ numbers := by
  induction n generalizing r with
  | zero => intro c hc; simp [buildSeps] at hc
  | succ m ih =>
    intro c hc
    simp only [buildSeps] at hc
    rcases List.mem_cons.mp hc with hc | hc
    · rw [hc]; exact pickSep_mem r
    · exact ih _ c hc

theorem data_length (p : String) : p.data.length = p.length := rfl

theorem buildPassword_length :
    ∀ (ps : List String) (seps : List Char), seps.length = ps.length - 1 →
      (buildPassword ps seps).length =
        (ps.map String.length).sum + seps.length := by
  intro ps
  induction ps with
  | nil =>
    intro seps h
    simp at h
    subst h
    rfl
  | cons p ps' ih =>
    intro seps h
    cases seps with
    | nil =>
      have hps' : ps' = [] := by
        cases ps' with
        | nil => rfl
        | cons q qs => simp at h
      subst hps'
      show (p.data ++ buildPassword [] []).length = _
      rw [List.length_append]
      have hnil : buildPassword [] [] = [] := rfl
      simp [data_length, hnil]
    | cons s ss =>
      have hps' : ps' ≠ [] := by
        intro he
        subst he
        simp at h
      have hss : ss.length = ps'.length - 1 := by
        have := List.length_pos.mpr hps'
        simp at h
        omega
      show (p.data ++ s :: buildPassword ps' ss).length = _
      rw [List.length_append, List.length_cons, ih ss hss]
      simp [data_length]
      omega

/-- C1: for a non-empty catalog with non-empty readings and
`min_length ≥ 1`, the complex-password generator succeeds and the secret's
length is exactly the sum of the selected reading lengths (itself at least
`min_length − 3`) plus one separator per internal word boundary plus the 2
trailing fillers; hence at least `(min_length − 3) + (words − 1) + 2`. -/
theorem complex_password_length
    (d : WordDict) (ml : Nat) (cap : Bool) (fuel : Nat) (r : Rng)
    (hd : d ≠ []) (hpin : ∀ we ∈ d, we.2.pinyin ≠ "")
    (hml : 1 ≤ ml) (hfuel : ml ≤ fuel) :
    ∃ secret hint ps cs seps fins,
      complexParts d ml cap fuel r = .ok (ps, cs, seps, fins) ∧
      generate_complex_password d ml cap fuel r = .ok (secret, hint) ∧
      seps.length = ps.length - 1 ∧
      fins.length = 2 ∧
      secret.length = (ps.map String.length).sum + (ps.length - 1) + 2 ∧
      ml - 3 ≤ (ps.map String.length).sum ∧
      ml - 3 + (ps.length - 1) + 2 ≤ secret.length := by
  obtain ⟨ps, cs, r1, hl⟩ :=
    complexLoop_ok_of_fuel d cap (ml - 3) hd hpin fuel [] [] r
      (by simp; omega)
  have hsum := complexLoop_ok_sum d cap (ml - 3) fuel [] [] r hl
  have hparts : complexParts d ml cap fuel r =
      .ok (ps, cs, (buildSeps (ps.length - 1) r1).1,
           (buildSeps 2 (buildSeps (ps.length - 1) r1).2).1) := by
    rw [complexParts, hl]
  have hgen : generate_complex_password d ml cap fuel r =
      .ok (String.mk (buildPassword ps (buildSeps (ps.length - 1) r1).1 ++
             (buildSeps 2 (buildSeps (ps.length - 1) r1).2).1),
           String.mk (buildHint (cs.zip ps) (buildSeps (ps.length - 1) r1).1 ++
             (buildSeps 2 (buildSeps (ps.length - 1) r1).2).1)) := by
    rw [generate_complex_password, hparts]
  have hsl : ((buildSeps (ps.length - 1) r1).1).length = ps.length - 1 :=
    buildSeps_length _ _
  have hfl : ((buildSeps 2 (buildSeps (ps.length - 1) r1).2).1).length = 2 :=
    buildSeps_length _ _
  have hlen : (String.mk (buildPassword ps (buildSeps (ps.length - 1) r1).1 ++
      (buildSeps 2 (buildSeps (ps.length - 1) r1).2).1)).length =
      (ps.map String.length).sum + (ps.length - 1) + 2 := by
    rw [String.length_mk, List.length_append,
      buildPassword_length ps _ hsl, hsl, hfl]
  exact ⟨_, _, ps, cs, _, _, hparts, hgen, hsl, hfl, hlen, hsum,
    by rw [hlen]; omega⟩

theorem complex_password_length_witness :
    ∃ secret hint ps cs seps fins,
      complexParts d0 10 false 10 rng0 = .ok (ps, cs, seps, fins) ∧
      generate_complex_password d0 10 false 10 rng0 = .ok (secret, hint) ∧
      seps.length = ps.length - 1 ∧
      fins.length = 2 ∧
      secret.length = (ps.map String.length).sum + (ps.length - 1) + 2 ∧
      10 - 3 ≤ (ps.map String.length).sum ∧
      10 - 3 + (ps.length - 1) + 2 ≤ secret.length :=
  complex_password_length d0 10 false 10 rng0 (by decide) (by decide)
    (by decide) (by decide)

/-! ### Hint parsing: the hint losslessly determines its components -/

theorem mk_data (s : String) : String.mk s.data = s := rfl

theorem takeWhile_middle {p : α → Bool} :
    ∀ (l₁ : List α) (a : α) (l₂ : List α),
      (∀ x ∈ l₁, p x = true) → p a = false →
      (l₁ ++ a :: l₂).takeWhile p = l₁ ∧
        (l₁ ++ a :: l₂).dropWhile p = a :: l₂ := by
  intro l₁
  induction l₁ with
  | nil =>
    intro a l₂ _ ha
    simp [List.takeWhile_cons, List.dropWhile_cons, ha]
  | cons x xs ih =>
    intro a l₂ h ha
    have hx : p x = true := h x (List.mem_cons_self _ _)
    obtain ⟨h1, h2⟩ := ih a l₂ (fun y hy => h y (List.mem_cons_of_mem _ hy)) ha
    simp [List.takeWhile_cons, List.dropWhile_cons, hx, h1, h2]

theorem count_hintToken (w p : String) (hw : '(' ∉ w.data)
    (hp : '(' ∉ p.data) : (hintToken w p).count '(' = 1 := by
  rw [hintToken, List.count_append, List.count_eq_zero.mpr hw,
    List.count_cons_self, List.count_append, List.count_eq_zero.mpr hp]
  rfl

theorem count_buildHint :
    ∀ (pairs : List (String × String)) (seps : List Char),
      (∀ wp ∈ pairs, '(' ∉ wp.1.data ∧ '(' ∉ wp.2.data) →
      (∀ c ∈ seps, c ≠ '(') →
      (buildHint pairs seps).count '(' = pairs.length := by
  intro pairs
  induction pairs with
  | nil => intro seps _ _; rfl
  | cons wp rest ih =>
    intro seps hp hs
    rcases wp with ⟨w, p⟩
    obtain ⟨hw, hpp⟩ := hp (w, p) (List.mem_cons_self _ _)
    have hrest := fun x hx => hp x (List.mem_cons_of_mem _ hx)
    cases seps with
    | nil =>
      show ((hintToken w p ++ buildHint rest []).count '(') = rest.length + 1
      rw [List.count_append, ih [] hrest (by intro c hc; simp at hc),
        count_hintToken w p hw hpp]
      omega
    | cons s ss =>
      show ((hintToken w p ++ s :: buildHint rest ss).count '(') =
        rest.length + 1
      have hs0 : ('(' : Char) ≠ s := fun he =>
        hs s (List.mem_cons_self _ _) he.symm
      rw [List.count_append, List.count_cons_of_ne hs0,
        ih ss hrest (fun c hc => hs c (List.mem_cons_of_mem _ hc)),
        count_hintToken w p hw hpp]
      omega

theorem bne_true_of_ne {x a : α} [BEq α] [LawfulBEq α] (h : x ≠ a) :
    (x != a) = true := by
  simp only [bne_iff_ne, ne_eq]
  exact h

theorem parseHintAux_step (n : Nat) (w p : String) (rest : List Char)
    (hw : '(' ∉ w.data) (hp1 : '(' ∉ p.data) (hp2 : ')' ∉ p.data) :
    parseHintAux (n + 1) (w.data ++ '(' :: (p.data ++ ')' :: rest)) =
      (match n with
       | 0 => some ([(String.mk w.data, String.mk p.data)], [], rest)
       | m + 1 =>
         match rest with
         | [] => none
         | s :: rest5 =>
           match parseHintAux (m + 1) rest5 with
           | none => none
           | some (pairs, seps, fins) =>
             some ((String.mk w.data, String.mk p.data) :: pairs,
               s :: seps, fins)) := by
  obtain ⟨ht1, hd1⟩ :=
    @takeWhile_middle Char (fun c => c != '(') w.data '(' (p.data ++ ')' :: rest)
      (fun x hx => bne_true_of_ne (fun he => hw (he ▸ hx))) (by decide)
  obtain ⟨ht2, hd2⟩ :=
    @takeWhile_middle Char (fun c => c != ')') p.data ')' rest
      (fun x hx => bne_true_of_ne (fun he => hp2 (he ▸ hx))) (by decide)
  rw [parseHintAux.eq_def]
  simp only [ht1, hd1, ht2, hd2]

theorem parseHintAux_buildHint :
    ∀ (pairs : List (String × String)) (seps tail : List Char),
      (∀ wp ∈ pairs,
        '(' ∉ wp.1.data ∧ '(' ∉ wp.2.data ∧ ')' ∉ wp.2.data) →
      seps.length = pairs.length - 1 →
      parseHintAux pairs.length (buildHint pairs seps ++ tail) =
        some (pairs, seps, tail) := by
  intro pairs
  induction pairs with
  | nil =>
    intro seps tail _ hlen
    have hs : seps = [] := by simpa using hlen
    subst hs
    rfl
  | cons wp rest ih =>
    intro seps tail hp hlen
    rcases wp with ⟨w, p⟩
    obtain ⟨hw, hp1, hp2⟩ := hp (w, p) (List.mem_cons_self _ _)
    have hrest := fun x hx => hp x (List.mem_cons_of_mem _ hx)
    cases rest with
    | nil =>
      have hs : seps = [] := by simpa using hlen
      subst hs
      have hform : buildHint [(w, p)] [] ++ tail =
          w.data ++ '(' :: (p.data ++ ')' :: tail) := by
        simp [buildHint, hintToken]
      show parseHintAux (0 + 1) (buildHint [(w, p)] [] ++ tail) = _
      rw [hform, parseHintAux_step 0 w p tail hw hp1 hp2]
    | cons wp2 rest2 =>
      cases seps with
      | nil => simp at hlen
      | cons s ss =>
        have hss : ss.length = (wp2 :: rest2).length - 1 := by
          simp at hlen ⊢
          omega
        have hform : buildHint ((w, p) :: wp2 :: rest2) (s :: ss) ++ tail =
            w.data ++ '(' ::
              (p.data ++ ')' ::
                (s :: (buildHint (wp2 :: rest2) ss ++ tail))) := by
          simp [buildHint, hintToken]
        show parseHintAux ((wp2 :: rest2).length + 1)
          (buildHint ((w, p) :: wp2 :: rest2) (s :: ss) ++ tail) = _
        rw [hform, parseHintAux_step _ w p _ hw hp1 hp2]
        have hih := ih ss tail hrest hss
        simp only [List.length_cons] at hih ⊢
        simp only [hih, mk_data]

theorem parseHint_buildHint (pairs : List (String × String))
    (seps fins : List Char)
    (hp : ∀ wp ∈ pairs, '(' ∉ wp.1.data ∧ '(' ∉ wp.2.data ∧ ')' ∉ wp.2.data)
    (hs : ∀ c ∈ seps, c ≠ '(') (hf : ∀ c ∈ fins, c ≠ '(')
    (hlen : seps.length = pairs.length - 1) :
    parseHint (String.mk (buildHint pairs seps ++ fins)) =
      some (pairs, seps, fins) := by
  rw [parseHint]
  have hdata : (String.mk (buildHint pairs seps ++ fins)).data =
      buildHint pairs seps ++ fins := rfl
  rw [hdata]
  have hc : (buildHint pairs seps ++ fins).count '(' = pairs.length := by
    rw [List.count_append,
      count_buildHint pairs seps (fun wp hwp => ⟨(hp wp hwp).1, (hp wp hwp).2.1⟩) hs,
      List.count_eq_zero.mpr (fun hmem => hf '(' hmem rfl)]
    omega
  rw [hc]
  exact parseHintAux_buildHint pairs seps fins hp hlen

theorem sep_chars_ne_lparen :
    (∀ c ∈ special_chars, c ≠ '(') ∧ (∀ c ∈ numbers, c ≠ '(') := by
  decide

theorem buildSeps_ne_lparen (n : Nat) (r : Rng) :
    ∀ c ∈ (buildSeps n r).1, c ≠ '(' := by
  intro c hc
  rcases buildSeps_mem n r c hc with h | h
  · exact sep_chars_ne_lparen.1 c h
  · exact sep_chars_ne_lparen.2 c h

/-- C2: the hint of a complex password losslessly determines the secret:
parsing the hint alone recovers the `word(reading)` pairs, the separator
between each pair of consecutive tokens, and the two trailing fillers, and
concatenating the parsed readings with those separators and trailing
fillers yields exactly the returned secret. -/
theorem complex_password_hint_lossless
    (d : WordDict) (ml : Nat) (cap : Bool) (fuel : Nat) (r : Rng)
    (hd : d ≠ [])
    (hpin : ∀ we ∈ d, we.2.pinyin ≠ "" ∧ '(' ∉ we.1.data ∧
      '(' ∉ we.2.pinyin.data ∧ ')' ∉ we.2.pinyin.data)
    (hml : 1 ≤ ml) (hfuel : ml ≤ fuel) :
    ∃ secret hint pairs seps fins,
      generate_complex_password d ml cap fuel r = .ok (secret, hint) ∧
      parseHint hint = some (pairs, seps, fins) ∧
      fins.length = 2 ∧
      secret = String.mk (buildPassword (pairs.map Prod.snd) seps ++ fins) := by
  obtain ⟨ps, cs, r1, hl⟩ :=
    complexLoop_ok_of_fuel d cap (ml - 3) hd (fun we h => (hpin we h).1)
      fuel [] [] r (by simp; omega)
  obtain ⟨hlen, hmemp, hmemc⟩ :=
    complexLoop_ok_parts d cap (ml - 3) fuel [] [] r hl rfl
  have hparts : complexParts d ml cap fuel r =
      .ok (ps, cs, (buildSeps (ps.length - 1) r1).1,
           (buildSeps 2 (buildSeps (ps.length - 1) r1).2).1) := by
    rw [complexParts, hl]
  have hgen : generate_complex_password d ml cap fuel r =
      .ok (String.mk (buildPassword ps (buildSeps (ps.length - 1) r1).1 ++
             (buildSeps 2 (buildSeps (ps.length - 1) r1).2).1),
           String.mk (buildHint (cs.zip ps) (buildSeps (ps.length - 1) r1).1 ++
             (buildSeps 2 (buildSeps (ps.length - 1) r1).2).1)) := by
    rw [generate_complex_password, hparts]
  have hpairs : ∀ wp ∈ cs.zip ps,
      '(' ∉ wp.1.data ∧ '(' ∉ wp.2.data ∧ ')' ∉ wp.2.data := by
    intro wp hwp
    rcases wp with ⟨wa, pa⟩
    obtain ⟨hwc, hwp2⟩ := List.of_mem_zip hwp
    refine ⟨?_, ?_, ?_⟩
    · rcases hmemc wa hwc with hfalse | ⟨we, hwe, heq⟩
      · exact absurd hfalse (List.not_mem_nil _)
      · rw [heq]; exact (hpin we hwe).2.1
    · rcases hmemp pa hwp2 with hfalse | ⟨we, hwe, heq⟩
      · exact absurd hfalse (List.not_mem_nil _)
      · rw [heq]; exact readingOf_lparen (hpin we hwe).2.2.1
    · rcases hmemp pa hwp2 with hfalse | ⟨we, hwe, heq⟩
      · exact absurd hfalse (List.not_mem_nil _)
      · rw [heq]; exact readingOf_rparen (hpin we hwe).2.2.2
  have hziplen : ((buildSeps (ps.length - 1) r1).1).length =
      (cs.zip ps).length - 1 := by
    rw [buildSeps_length, List.length_zip, hlen]
    simp
  have hparse := parseHint_buildHint (cs.zip ps)
    ((buildSeps (ps.length - 1) r1).1)
    ((buildSeps 2 (buildSeps (ps.length - 1) r1).2).1) hpairs
    (buildSeps_ne_lparen _ _) (buildSeps_ne_lparen _ _) hziplen
  have hsnd : (cs.zip ps).map Prod.snd = ps :=
    List.map_snd_zip cs ps hlen.ge
  exact ⟨_, _, cs.zip ps, _, _, hgen, hparse, buildSeps_length _ _,
    by rw [hsnd]⟩

theorem complex_password_hint_lossless_witness :
    ∃ secret hint pairs seps fins,
      generate_complex_password d0 10 false 10 rng0 = .ok (secret, hint) ∧
      parseHint hint = some (pairs, seps, fins) ∧
      fins.length = 2 ∧
      secret = String.mk (buildPassword (pairs.map Prod.snd) seps ++ fins) :=
  complex_password_hint_lossless d0 10 false 10 rng0 (by decide) (by decide)
    (by decide) (by decide)

end PPGen
